import Mathlib

/-!
Verification of the FreelanceSpace/FL.ru order-parsing pipeline.

Shallow embedding of the Python sources:
  * `src/parsers/combined_parser.py`            (aggregator: dedup + chronological sort)
  * `src/parsers/freelancespace_parser_simple.py` (paginated adapter, block locator, field extractor)
  * `src/parsers/fl_parser.py`                  (index-then-detail adapter)

Python dictionaries holding order records are modelled by the `Order`
structure; a key that may be absent (`dict.get`) is an `Option` field.
Python `set`s of ids are modelled by `List String` used as a set
(membership is all the code ever asks; insertion is `cons`).
`hash()` is process-seeded but fixed within a process, so it is passed in
as an explicit parameter `pyHash : String → Int`.
-/

/-- A parsed order record, as built by `_extract_order_data` /
`_parse_individual_page`.  `id` and `published` are `Option` because the
consumers read them with `dict.get` and must handle absence. -/
structure Order where
  id : Option String := none
  title : String := ""
  url : String := ""
  author : String := ""
  price : String := ""
  category : String := ""
  published : Option String := none
  description : String := ""
  source : String := ""
deriving DecidableEq

/-- Occurrence scan: does `needle` occur (contiguously) in the list?
This is the leftmost-scan Python uses for `needle in hay`. -/
def containsSeq (needle : List Char) : List Char → Bool
  | [] => needle.isEmpty
  | c :: cs => needle.isPrefixOf (c :: cs) || containsSeq needle cs

/-- Python `needle in hay` on strings (substring test). -/
def substrB (needle hay : String) : Bool :=
  containsSeq needle.toList hay.toList

/-- Python `str.lower conversion` restricted to the alphabets the sources
use: ASCII letters and the Cyrillic range `А`–`Я` plus `Ё`. -/
def pyLower (c : Char) : Char :=
  if 'A' ≤ c ∧ c ≤ 'Z' then Char.ofNat (c.toNat + 32)
  else if 0x410 ≤ c.toNat ∧ c.toNat ≤ 0x42F then Char.ofNat (c.toNat + 0x20)
  else if c.toNat = 0x401 then Char.ofNat 0x451
  else c

/-- Lower-cased form of a string, as `time_str.lower` produces it. -/
def lowerStr (s : String) : String :=
  String.mk (s.toList.map pyLower)

/-- Digits of the first run found by `re.findall` followed by `[0]`:
drop to the first ASCII digit, then take the maximal digit run. -/
def firstDigitRun (s : String) : List Char :=
  ((s.toList).dropWhile (fun c => ¬ c.isDigit)).takeWhile (fun c => c.isDigit)

/-- Numeric value of a digit run, i.e. Python `int` applied to it. -/
def digitsToNat (ds : List Char) : Nat :=
  ds.foldl (fun acc c => acc * 10 + (c.toNat - '0'.toNat)) 0

/-- `time_to_minutes` from `combined_parser.py` lines 94-123 (the same
function is repeated verbatim in `freelancespace_parser_simple.py`
lines 503-532).  Returns the recency ordinal in minutes. -/
def time_to_minutes (time_str : String) : Int :=
  if time_str = "" ∨ time_str = "Недавно" then 0
  else
    let t := lowerStr time_str
    let ds := firstDigitRun t
    if ds = [] then 0
    else
      let num : Int := (digitsToNat ds : Nat)
      if substrB "секунд" t then max 1 (num / 60)
      else if substrB "минут" t then num
      else if substrB "час" t then num * 60
      else if substrB "день" t ∨ substrB "дня" t ∨ substrB "дней" t then num * 24 * 60
      else if substrB "недел" t then num * 7 * 24 * 60
      else if substrB "месяц" t then num * 30 * 24 * 60
      else 0

/-- Sort key used by `_sort_orders_by_time`:
`time_to_minutes(x.get('published', ''))`. -/
def orderKey (o : Order) : Int :=
  time_to_minutes (o.published.getD "")

/-- The comparison `sorted(..., key=time_to_minutes∘published, reverse=True)`
realises: `a` may come before `b` iff `b`'s key is not larger. -/
def keyGE (a b : Order) : Prop :=
  orderKey b ≤ orderKey a

instance : DecidableRel keyGE := fun a b => Int.decLe (orderKey b) (orderKey a)

instance : IsTotal Order keyGE :=
  ⟨fun x y => (le_total (orderKey y) (orderKey x)).elim Or.inl Or.inr⟩

instance : IsTrans Order keyGE :=
  ⟨fun _ _ _ h1 h2 => le_trans h2 h1⟩

/-- `_sort_orders_by_time` (`combined_parser.py` lines 90-133): Python's
`sorted` with `reverse=True` is the stable descending sort by key, which
insertion sort with `keyGE` computes. -/
def _sort_orders_by_time (orders : List Order) : List Order :=
  List.insertionSort keyGE orders

/-- The new-record filter shared verbatim by both adapters
(`freelancespace_parser_simple.py` lines 484-488 and `fl_parser.py`
lines 60-64): keep a record iff its id is truthy and unseen, adding the
id to the adapter's `sent_orders` set.  Returns the kept records and the
updated set. -/
def filter_new (sent : List String) : List Order → List Order × List String
  | [] => ([], sent)
  | o :: rest =>
    match o.id with
    | some s =>
      if s ≠ "" ∧ s ∉ sent then
        let r := filter_new (s :: sent) rest
        (o :: r.1, r.2)
      else filter_new sent rest
    | none => filter_new sent rest

/-- `FLParser.get_new_orders`, with the records extracted from the index
page supplied as input (the network side is external). -/
def FLParser.get_new_orders (sent : List String) (page_orders : List Order) :
    List Order × List String :=
  filter_new sent page_orders

/-- Loop body of `CombinedParser._filter_unique_orders` (lines 76-88),
threading the local `seen_ids` set and the aggregator's cross-source
`sent_orders` set. -/
def _filter_unique_orders_aux (seen sent : List String) :
    List Order → List Order × List String × List String
  | [] => ([], seen, sent)
  | o :: rest =>
    match o.id with
    | some s =>
      if s ≠ "" ∧ s ∉ seen ∧ s ∉ sent then
        let r := _filter_unique_orders_aux (s :: seen) (s :: sent) rest
        (o :: r.1, r.2)
      else _filter_unique_orders_aux seen sent rest
    | none => _filter_unique_orders_aux seen sent rest

/-- `CombinedParser._filter_unique_orders`: deduplicate against a fresh
`seen_ids` set and the persistent cross-source `sent_orders` set;
returns the unique records and the grown cross-source set. -/
def _filter_unique_orders (sent : List String) (orders : List Order) :
    List Order × List String :=
  let r := _filter_unique_orders_aux [] sent orders
  (r.1, r.2.2)

/-- `CombinedParser.get_new_orders` (lines 33-74) with the two adapters'
new-record lists supplied as inputs: concatenate, deduplicate, sort.
Returns the ordered records handed to `parse_and_notify` plus the grown
cross-source set. -/
def CombinedParser.get_new_orders (sent : List String)
    (freelancespace_orders fl_orders : List Order) : List Order × List String :=
  let r := _filter_unique_orders sent (freelancespace_orders ++ fl_orders)
  (_sort_orders_by_time r.1, r.2)

/-- Outcome of handling one page inside `parse_orders`
(`freelancespace_parser_simple.py` lines 78-125): a 200 response whose
blocks were extracted, a non-success status, a timeout, a connection
error, or any other exception raised while handling the page. -/
inductive PageResult where
  | ok (orders : List Order)
  | httpError (status : Nat)
  | timeout
  | connError
  | unexpected
deriving DecidableEq

/-- The page loop of `parse_orders`: 200 with no blocks breaks, 200 with
blocks accumulates, non-success status / timeout / connection error
break (remaining pages are never fetched), any other exception
`continue`s to the next page. -/
def parse_orders_pages (fetch : Nat → PageResult) (acc : List Order) :
    List Nat → List Order
  | [] => acc
  | p :: rest =>
    match fetch p with
    | .ok os => if os = [] then acc else parse_orders_pages fetch (acc ++ os) rest
    | .httpError _ => acc
    | .timeout => acc
    | .connError => acc
    | .unexpected => parse_orders_pages fetch acc rest

/-- `FreelanceSpaceParserSimple.parse_orders` (lines 62-132): run the page
loop over pages `1..max_pages`, then sort the accumulated records by
publication time. -/
def parse_orders (fetch : Nat → PageResult) (max_pages : Nat) : List Order :=
  _sort_orders_by_time (parse_orders_pages fetch [] (List.range' 1 max_pages))

/-- `FreelanceSpaceParserSimple.get_new_orders` (lines 465-491): parse the
configured number of pages, then run the adapter-level new-record
filter against `sent_orders`. -/
def FreelanceSpaceParserSimple.get_new_orders (fetch : Nat → PageResult)
    (max_pages : Nat) (sent : List String) : List Order × List String :=
  filter_new sent (parse_orders fetch max_pages)

/-- Concrete records with recency ordinals 120, 0 and 60. -/
def order120 : Order := { id := some "a", published := some "2 часа" }

/-- Ordinal 0: no `published` value, mapped through the `''` default. -/
def order0 : Order := { id := some "b" }

/-- Ordinal 60. -/
def order60 : Order := { id := some "c", published := some "60 минут" }

/-- Stability of the aggregator sort: the sublist of records at any fixed
ordinal is untouched by `_sort_orders_by_time`. -/
theorem sort_filter_key_eq (l : List Order) (k : Int) :
    (_sort_orders_by_time l).filter (fun o => orderKey o == k)
      = l.filter (fun o => orderKey o == k) := by
  have hpw : (l.filter (fun o => orderKey o == k)).Pairwise keyGE := by
    apply List.pairwise_of_forall_mem_list
    intro a ha b hb
    have ha' : orderKey a = k := by simpa using (List.mem_filter.mp ha).2
    have hb' : orderKey b = k := by simpa using (List.mem_filter.mp hb).2
    show orderKey b ≤ orderKey a
    omega
  have hsub : List.Sublist (l.filter (fun o => orderKey o == k)) (_sort_orders_by_time l) :=
    List.sublist_insertionSort hpw (List.filter_sublist l)
  have hself : (l.filter (fun o => orderKey o == k)).filter (fun o => orderKey o == k)
      = l.filter (fun o => orderKey o == k) := by
    apply List.filter_eq_self.mpr
    intro a ha
    exact (List.mem_filter.mp ha).2
  have hsub2 : List.Sublist (l.filter (fun o => orderKey o == k))
      ((_sort_orders_by_time l).filter (fun o => orderKey o == k)) := by
    simpa [hself] using hsub.filter (fun o => orderKey o == k)
  have hperm : List.Perm ((_sort_orders_by_time l).filter (fun o => orderKey o == k))
      (l.filter (fun o => orderKey o == k)) :=
    (List.perm_insertionSort keyGE l).filter _
  exact (hsub2.eq_of_length hperm.length_eq.symm).symm

/-- C1: the aggregator sort orders records by recency ordinal descending
(every earlier record's ordinal is at least every later one's), is a
permutation of its input, is stable (records at any equal ordinal keep
their concatenation order), and maps arrival ordinals `[120, 0, 60]` to
output `[120, 60, 0]`. -/
theorem aggregator_sort_correct :
    (∀ l : List Order, (_sort_orders_by_time l).Pairwise keyGE)
    ∧ (∀ l : List Order, List.Perm (_sort_orders_by_time l) l)
    ∧ (∀ (l : List Order) (k : Int),
        (_sort_orders_by_time l).filter (fun o => orderKey o == k)
          = l.filter (fun o => orderKey o == k))
    ∧ (orderKey order120 = 120 ∧ orderKey order0 = 0 ∧ orderKey order60 = 60)
    ∧ _sort_orders_by_time [order120, order0, order60] = [order120, order60, order0] :=
  ⟨fun l => List.sorted_insertionSort keyGE l,
   fun l => List.perm_insertionSort keyGE l,
   sort_filter_key_eq,
   by decide,
   by decide⟩

/-- The adapter filter only ever grows `sent_orders`. -/
theorem filter_new_sent_mono (l : List Order) :
    ∀ sent : List String, sent ⊆ (filter_new sent l).2 := by
  induction l with
  | nil => intro sent; simp [filter_new]
  | cons o rest ih =>
    intro sent
    cases h : o.id with
    | none => simpa [filter_new, h] using ih sent
    | some s =>
      by_cases hg : s ≠ "" ∧ s ∉ sent
      · have h2 := ih (s :: sent)
        simp only [filter_new, h, if_pos hg]
        exact fun x hx => h2 (List.mem_cons_of_mem _ hx)
      · simp only [filter_new, h, if_neg hg]
        exact ih sent

/-- Every record the adapter filter returns carries a truthy id that has
been recorded in the updated `sent_orders`. -/
theorem filter_new_mem_recorded (l : List Order) :
    ∀ (sent : List String) (o : Order), o ∈ (filter_new sent l).1 →
      ∃ s, o.id = some s ∧ s ≠ "" ∧ s ∈ (filter_new sent l).2 := by
  induction l with
  | nil => intro sent o h; simp [filter_new] at h
  | cons o' rest ih =>
    intro sent o hmem
    cases h : o'.id with
    | none =>
      simp only [filter_new, h] at hmem ⊢
      exact ih sent o hmem
    | some s =>
      by_cases hg : s ≠ "" ∧ s ∉ sent
      · simp only [filter_new, h, if_pos hg] at hmem ⊢
        rcases List.mem_cons.mp hmem with rfl | htail
        · exact ⟨s, h, hg.1, filter_new_sent_mono rest (s :: sent) (List.mem_cons_self s sent)⟩
        · exact ih (s :: sent) o htail
      · simp only [filter_new, h, if_neg hg] at hmem ⊢
        exact ih sent o hmem

/-- An id already in `sent_orders` is never reported as new by the
adapter filter. -/
theorem filter_new_not_reseen (l : List Order) :
    ∀ (sent : List String) (s : String) (o : Order), s ∈ sent →
      o ∈ (filter_new sent l).1 → o.id ≠ some s := by
  induction l with
  | nil => intro sent s o _ h; simp [filter_new] at h
  | cons o' rest ih =>
    intro sent s o hs hmem
    cases h : o'.id with
    | none =>
      simp only [filter_new, h] at hmem
      exact ih sent s o hs hmem
    | some s' =>
      by_cases hg : s' ≠ "" ∧ s' ∉ sent
      · simp only [filter_new, h, if_pos hg] at hmem
        rcases List.mem_cons.mp hmem with rfl | htail
        · rw [h]
          intro hc
          exact hg.2 (Option.some_injective _ hc ▸ hs)
        · exact ih (s' :: sent) s o (List.mem_cons_of_mem _ hs) htail
      · simp only [filter_new, h, if_neg hg] at hmem
        exact ih sent s o hs hmem

/-- The aggregator dedup only ever grows the cross-source set. -/
theorem unique_aux_sent_mono (l : List Order) :
    ∀ seen sent : List String, sent ⊆ (_filter_unique_orders_aux seen sent l).2.2 := by
  induction l with
  | nil => intro seen sent; simp [_filter_unique_orders_aux]
  | cons o rest ih =>
    intro seen sent
    cases h : o.id with
    | none => simpa [_filter_unique_orders_aux, h] using ih seen sent
    | some s =>
      by_cases hg : s ≠ "" ∧ s ∉ seen ∧ s ∉ sent
      · have h2 := ih (s :: seen) (s :: sent)
        simp only [_filter_unique_orders_aux, h, if_pos hg]
        exact fun x hx => h2 (List.mem_cons_of_mem _ hx)
      · simp only [_filter_unique_orders_aux, h, if_neg hg]
        exact ih seen sent

/-- A record kept by the aggregator dedup has a truthy id recorded in the
grown cross-source set. -/
theorem unique_aux_mem_recorded (l : List Order) :
    ∀ (seen sent : List String) (o : Order),
      o ∈ (_filter_unique_orders_aux seen sent l).1 →
      ∃ s, o.id = some s ∧ s ≠ "" ∧ s ∈ (_filter_unique_orders_aux seen sent l).2.2 := by
  induction l with
  | nil => intro seen sent o h; simp [_filter_unique_orders_aux] at h
  | cons o' rest ih =>
    intro seen sent o hmem
    cases h : o'.id with
    | none =>
      simp only [_filter_unique_orders_aux, h] at hmem ⊢
      exact ih seen sent o hmem
    | some s =>
      by_cases hg : s ≠ "" ∧ s ∉ seen ∧ s ∉ sent
      · simp only [_filter_unique_orders_aux, h, if_pos hg] at hmem ⊢
        rcases List.mem_cons.mp hmem with rfl | htail
        · exact ⟨s, h, hg.1,
            unique_aux_sent_mono rest (s :: seen) (s :: sent) (List.mem_cons_self s sent)⟩
        · exact ih (s :: seen) (s :: sent) o htail
      · simp only [_filter_unique_orders_aux, h, if_neg hg] at hmem ⊢
        exact ih seen sent o hmem

/-- An id in either the local `seen_ids` or the cross-source set is never
emitted by the aggregator dedup. -/
theorem unique_aux_not_reseen (l : List Order) :
    ∀ (seen sent : List String) (s : String) (o : Order), (s ∈ seen ∨ s ∈ sent) →
      o ∈ (_filter_unique_orders_aux seen sent l).1 → o.id ≠ some s := by
  induction l with
  | nil => intro seen sent s o _ h; simp [_filter_unique_orders_aux] at h
  | cons o' rest ih =>
    intro seen sent s o hs hmem
    cases h : o'.id with
    | none =>
      simp only [_filter_unique_orders_aux, h] at hmem
      exact ih seen sent s o hs hmem
    | some s' =>
      by_cases hg : s' ≠ "" ∧ s' ∉ seen ∧ s' ∉ sent
      · simp only [_filter_unique_orders_aux, h, if_pos hg] at hmem
        rcases List.mem_cons.mp hmem with rfl | htail
        · rw [h]
          intro hc
          have hss : s' = s := Option.some_injective _ hc
          rcases hs with hseen | hsent
          · exact hg.2.1 (hss ▸ hseen)
          · exact hg.2.2 (hss ▸ hsent)
        · refine ih (s' :: seen) (s' :: sent) s o ?_ htail
          rcases hs with hseen | hsent
          · exact Or.inl (List.mem_cons_of_mem _ hseen)
          · exact Or.inr (List.mem_cons_of_mem _ hsent)
      · simp only [_filter_unique_orders_aux, h, if_neg hg] at hmem
        exact ih seen sent s o hs hmem

/-- The aggregator dedup output is a subsequence of its input. -/
theorem unique_aux_sublist (l : List Order) :
    ∀ seen sent : List String,
      List.Sublist (_filter_unique_orders_aux seen sent l).1 l := by
  induction l with
  | nil => intro seen sent; simp [_filter_unique_orders_aux]
  | cons o rest ih =>
    intro seen sent
    cases h : o.id with
    | none =>
      simp only [_filter_unique_orders_aux, h]
      exact (ih seen sent).cons o
    | some s =>
      by_cases hg : s ≠ "" ∧ s ∉ seen ∧ s ∉ sent
      · simp only [_filter_unique_orders_aux, h, if_pos hg]
        exact (ih (s :: seen) (s :: sent)).cons₂ o
      · simp only [_filter_unique_orders_aux, h, if_neg hg]
        exact (ih seen sent).cons o

/-- Records bearing an id from the local or cross-source set contribute
nothing to the dedup output (count zero). -/
theorem unique_aux_countP_stale (l : List Order) :
    ∀ (seen sent : List String) (x : String), (x ∈ seen ∨ x ∈ sent) →
      ((_filter_unique_orders_aux seen sent l).1.countP (fun o => o.id == some x)) = 0 := by
  intro seen sent x hx
  apply List.countP_eq_zero.mpr
  intro o ho
  have := unique_aux_not_reseen l seen sent x o hx ho
  simpa using this

/-- A fresh id occurs in the dedup output exactly once when present in the
input, and never otherwise. -/
theorem unique_aux_countP_fresh (l : List Order) :
    ∀ (seen sent : List String) (x : String), x ≠ "" → x ∉ seen → x ∉ sent →
      ((_filter_unique_orders_aux seen sent l).1.countP (fun o => o.id == some x))
        = if l.any (fun o => o.id == some x) then 1 else 0 := by
  induction l with
  | nil => intro seen sent x _ _ _; simp [_filter_unique_orders_aux]
  | cons o rest ih =>
    intro seen sent x hx hseen hsent
    cases h : o.id with
    | none =>
      simp only [_filter_unique_orders_aux, h, List.any_cons]
      rw [show ((none : Option String) == some x) = false from rfl, Bool.false_or]
      exact ih seen sent x hx hseen hsent
    | some s =>
      by_cases hg : s ≠ "" ∧ s ∉ seen ∧ s ∉ sent
      · by_cases hsx : s = x
        · subst hsx
          simp only [_filter_unique_orders_aux, h, if_pos hg, List.countP_cons,
            List.any_cons, h]
          rw [unique_aux_countP_stale rest (s :: seen) (s :: sent) s
            (Or.inl (List.mem_cons_self s seen))]
          simp [h]
        · simp only [_filter_unique_orders_aux, h, if_pos hg, List.countP_cons,
            List.any_cons, h]
          rw [show ((some s == some x)) = false from by simp [hsx]]
          have hx2 : x ∉ s :: seen := by
            intro hc
            rcases List.mem_cons.mp hc with rfl | hc2
            · exact hsx rfl
            · exact hseen hc2
          have hx3 : x ∉ s :: sent := by
            intro hc
            rcases List.mem_cons.mp hc with rfl | hc2
            · exact hsx rfl
            · exact hsent hc2
          rw [ih (s :: seen) (s :: sent) x hx hx2 hx3]
          simp
      · have hsx : s ≠ x := by
          rintro rfl
          exact hg ⟨hx, hseen, hsent⟩
        simp only [_filter_unique_orders_aux, h, if_neg hg, List.any_cons, h]
        rw [show ((some s == some x)) = false from by simp [hsx], Bool.false_or]
        exact ih seen sent x hx hseen hsent

/-- For a fresh id the dedup keeps exactly the first matching input
record: `find?` commutes with the filter. -/
theorem unique_aux_find_fresh (l : List Order) :
    ∀ (seen sent : List String) (x : String), x ≠ "" → x ∉ seen → x ∉ sent →
      ((_filter_unique_orders_aux seen sent l).1.find? (fun o => o.id == some x))
        = l.find? (fun o => o.id == some x) := by
  induction l with
  | nil => intro seen sent x _ _ _; simp [_filter_unique_orders_aux]
  | cons o rest ih =>
    intro seen sent x hx hseen hsent
    cases h : o.id with
    | none =>
      have hpf : ((none : Option String) == some x) = false := rfl
      simp only [_filter_unique_orders_aux, h, List.find?, hpf]
      exact ih seen sent x hx hseen hsent
    | some s =>
      by_cases hg : s ≠ "" ∧ s ∉ seen ∧ s ∉ sent
      · by_cases hsx : s = x
        · subst hsx
          have hpt : (some s == some s) = true := by simp
          simp only [_filter_unique_orders_aux, h, if_pos hg, List.find?, hpt]
        · have hpf : (some s == some x) = false := by simp [hsx]
          have hx2 : x ∉ s :: seen := by
            intro hc
            rcases List.mem_cons.mp hc with rfl | hc2
            · exact hsx rfl
            · exact hseen hc2
          have hx3 : x ∉ s :: sent := by
            intro hc
            rcases List.mem_cons.mp hc with rfl | hc2
            · exact hsx rfl
            · exact hsent hc2
          simp only [_filter_unique_orders_aux, h, if_pos hg, List.find?, hpf]
          exact ih (s :: seen) (s :: sent) x hx hx2 hx3
      · have hsx : s ≠ x := by
          rintro rfl
          exact hg ⟨hx, hseen, hsent⟩
        have hpf : (some s == some x) = false := by simp [hsx]
        simp only [_filter_unique_orders_aux, h, if_neg hg, List.find?, hpf]
        exact ih seen sent x hx hseen hsent

/-- Membership in the grown cross-source set is exactly: previously
present, or the id of some record the dedup emitted. -/
theorem unique_aux_sent_iff (l : List Order) :
    ∀ (seen sent : List String) (x : String),
      x ∈ (_filter_unique_orders_aux seen sent l).2.2 ↔
        x ∈ sent ∨ ∃ o ∈ (_filter_unique_orders_aux seen sent l).1, o.id = some x := by
  induction l with
  | nil => intro seen sent x; simp [_filter_unique_orders_aux]
  | cons o rest ih =>
    intro seen sent x
    cases h : o.id with
    | none =>
      simp only [_filter_unique_orders_aux, h]
      exact ih seen sent x
    | some s =>
      by_cases hg : s ≠ "" ∧ s ∉ seen ∧ s ∉ sent
      · simp only [_filter_unique_orders_aux, h, if_pos hg]
        rw [ih (s :: seen) (s :: sent) x]
        simp only [List.mem_cons, h]
        constructor
        · rintro ((rfl | hsent) | ⟨o', ho', hid⟩)
          · exact Or.inr ⟨o, Or.inl rfl, h⟩
          · exact Or.inl hsent
          · exact Or.inr ⟨o', Or.inr ho', hid⟩
        · rintro (hsent | ⟨o', (rfl | ho'), hid⟩)
          · exact Or.inl (Or.inr hsent)
          · rw [h] at hid
            exact Or.inl (Or.inl (Option.some_injective _ hid.symm))
          · exact Or.inr ⟨o', ho', hid⟩
      · simp only [_filter_unique_orders_aux, h, if_neg hg]
        exact ih seen sent x

/-- A record with id `"X"` as FreelanceSpace would emit it. -/
def orderX1 : Order := { id := some "X", source := "freelancespace.ru" }

/-- A record with the same id `"X"` as FL.ru would emit it. -/
def orderX2 : Order := { id := some "X", source := "FL.ru" }

/-- C2: the aggregator dedup keeps, per fresh id, exactly the first
occurrence in concatenation order (the `find?` and `countP`
characterisations), silently drops every record whose id is already in
the cross-source set, and emits a subsequence of its input. -/
theorem aggregator_dedup_correct :
    (∀ (sent : List String) (l : List Order) (x : String), x ≠ "" → x ∉ sent →
        ((_filter_unique_orders sent l).1.countP (fun o => o.id == some x))
          = if l.any (fun o => o.id == some x) then 1 else 0)
    ∧ (∀ (sent : List String) (l : List Order) (x : String), x ≠ "" → x ∉ sent →
        ((_filter_unique_orders sent l).1.find? (fun o => o.id == some x))
          = l.find? (fun o => o.id == some x))
    ∧ (∀ (sent : List String) (l : List Order) (x : String), x ∈ sent →
        ((_filter_unique_orders sent l).1.countP (fun o => o.id == some x)) = 0)
    ∧ (∀ (sent : List String) (l : List Order),
        List.Sublist (_filter_unique_orders sent l).1 l) := by
  refine ⟨?_, ?_, ?_, ?_⟩
  · intro sent l x hx hsent
    exact unique_aux_countP_fresh l [] sent x hx (by simp) hsent
  · intro sent l x hx hsent
    exact unique_aux_find_fresh l [] sent x hx (by simp) hsent
  · intro sent l x hsent
    exact unique_aux_countP_stale l [] sent x (Or.inr hsent)
  · intro sent l
    exact unique_aux_sublist l [] sent

/-- Witness for C2 at the spec's scenario: two adapters each contribute a
record with id `"X"`; the aggregator emits exactly one. -/
theorem aggregator_dedup_correct_witness :
    ((_filter_unique_orders [] [orderX1, orderX2]).1.countP
      (fun o => o.id == some "X")) = 1 := by
  rw [aggregator_dedup_correct.1 [] [orderX1, orderX2] "X" (by decide) (by simp)]
  decide

/-- C4: ids grow monotonically in both seen sets; every record an adapter
reports carries an id recorded as a side effect; an id already recorded
(by the adapter or by the aggregator's cross-source filter) is never
reported again, in the same call or any later one. -/
theorem adapter_never_repeats :
    (∀ (sent : List String) (l : List Order), sent ⊆ (filter_new sent l).2)
    ∧ (∀ (sent : List String) (l : List Order) (o : Order), o ∈ (filter_new sent l).1 →
        ∃ s, o.id = some s ∧ s ≠ "" ∧ s ∈ (filter_new sent l).2)
    ∧ (∀ (sent : List String) (l : List Order) (s : String) (o : Order), s ∈ sent →
        o ∈ (filter_new sent l).1 → o.id ≠ some s)
    ∧ (∀ (sent : List String) (l₁ l₂ : List Order) (s : String) (o o₂ : Order),
        o ∈ (filter_new sent l₁).1 → o.id = some s →
        o₂ ∈ (filter_new (filter_new sent l₁).2 l₂).1 → o₂.id ≠ some s)
    ∧ (∀ (sent : List String) (l : List Order), sent ⊆ (_filter_unique_orders sent l).2)
    ∧ (∀ (sent : List String) (l : List Order) (o : Order),
        o ∈ (_filter_unique_orders sent l).1 →
        ∃ s, o.id = some s ∧ s ≠ "" ∧ s ∈ (_filter_unique_orders sent l).2)
    ∧ (∀ (sent : List String) (l : List Order) (s : String) (o : Order), s ∈ sent →
        o ∈ (_filter_unique_orders sent l).1 → o.id ≠ some s) := by
  refine ⟨?_, ?_, ?_, ?_, ?_, ?_, ?_⟩
  · intro sent l
    exact filter_new_sent_mono l sent
  · intro sent l o h
    exact filter_new_mem_recorded l sent o h
  · intro sent l s o hs h
    exact filter_new_not_reseen l sent s o hs h
  · intro sent l₁ l₂ s o o₂ h1 hid h2
    rcases filter_new_mem_recorded l₁ sent o h1 with ⟨s', hid', _, hrec⟩
    have hss : s' = s := by
      rw [hid] at hid'
      exact (Option.some_injective _ hid').symm
    subst hss
    exact filter_new_not_reseen l₂ (filter_new sent l₁).2 s' o₂ hrec h2
  · intro sent l
    exact unique_aux_sent_mono l [] sent
  · intro sent l o h
    exact unique_aux_mem_recorded l [] sent o h
  · intro sent l s o hs h
    exact unique_aux_not_reseen l [] sent s o (Or.inr hs) h

/-- A record with id `"n1"`. -/
def orderN : Order := { id := some "n1" }

/-- Witness for C4: once `orderN` is returned by one call, an identical
later call no longer returns it. -/
theorem adapter_never_repeats_witness :
    orderN ∉ (filter_new (filter_new [] [orderN]).2 [orderN]).1 := by
  intro hmem
  exact adapter_never_repeats.2.2.2.1 [] [orderN] [orderN] "n1" orderN orderN
    (by decide) rfl hmem rfl

/-- A record whose dictionary has no `id` key. -/
def orderNoId : Order := { title := "t" }

/-- A record whose id is the empty string (falsy in Python). -/
def orderEmptyId : Order := { id := some "" }

/-- C10 counterexample: a record with a missing or empty id does NOT pass
the adapter-level new-record filter (it applies the same truthiness
check), contradicting the claim's premise that such a record reaches the
aggregator after passing the adapter filter. -/
theorem adapter_filter_drops_invalid_ids :
    (filter_new [] [orderNoId]).1 = []
    ∧ (filter_new [] [orderEmptyId]).1 = []
    ∧ (_filter_unique_orders [] [orderNoId, orderEmptyId]).1 = []
    ∧ (_filter_unique_orders [] [orderNoId, orderEmptyId]).2 = [] := by
  decide

/-- C10 (amended): the aggregator dedup silently drops every record whose
id is missing or empty, adds nothing to the cross-source set for it
(the grown set holds exactly the old ids plus the ids of emitted
records), and therefore no such record is ever handed to the notifier;
the adapter-level filter applies the same truthiness check and already
drops such records itself. -/
theorem aggregator_drops_invalid_ids :
    (∀ (sent : List String) (l : List Order) (o : Order),
        o ∈ (_filter_unique_orders sent l).1 → ∃ s, o.id = some s ∧ s ≠ "")
    ∧ (∀ (sent : List String) (l : List Order) (x : String),
        x ∈ (_filter_unique_orders sent l).2 ↔
          x ∈ sent ∨ ∃ o ∈ (_filter_unique_orders sent l).1, o.id = some x)
    ∧ (∀ (sent : List String) (fs_orders fl_orders : List Order) (o : Order),
        o ∈ (CombinedParser.get_new_orders sent fs_orders fl_orders).1 →
        ∃ s, o.id = some s ∧ s ≠ "")
    ∧ (∀ (sent : List String) (l : List Order) (o : Order),
        o ∈ (filter_new sent l).1 → ∃ s, o.id = some s ∧ s ≠ "") := by
  refine ⟨?_, ?_, ?_, ?_⟩
  · intro sent l o h
    rcases unique_aux_mem_recorded l [] sent o h with ⟨s, hid, hne, _⟩
    exact ⟨s, hid, hne⟩
  · intro sent l x
    exact unique_aux_sent_iff l [] sent x
  · intro sent fs_orders fl_orders o h
    have h2 : o ∈ (_filter_unique_orders sent (fs_orders ++ fl_orders)).1 := by
      have := (List.mem_insertionSort keyGE).mp h
      exact this
    rcases unique_aux_mem_recorded (fs_orders ++ fl_orders) [] sent o h2 with ⟨s, hid, hne, _⟩
    exact ⟨s, hid, hne⟩
  · intro sent l o h
    rcases filter_new_mem_recorded l sent o h with ⟨s, hid, hne, _⟩
    exact ⟨s, hid, hne⟩

/-- A record with a well-formed id. -/
def orderV : Order := { id := some "v" }

/-- Witness for C10's amended theorem at a concrete record. -/
theorem aggregator_drops_invalid_ids_witness :
    ∃ s, orderV.id = some s ∧ s ≠ "" :=
  aggregator_drops_invalid_ids.2.2.2 [] [orderV] orderV (by decide)

/-- C5: the Recency Normalizer is a total function (the embedding is a
Lean `def`, so it cannot raise), always returns a non-negative ordinal,
and yields 0 on every parse failure: no digit run, or none of the six
unit keywords present. -/
theorem normalizer_never_fails (s : String) :
    0 ≤ time_to_minutes s
    ∧ (firstDigitRun (lowerStr s) = [] → time_to_minutes s = 0)
    ∧ ((∀ u ∈ ["секунд", "минут", "час", "день", "дня", "дней", "недел", "месяц"],
          substrB u (lowerStr s) = false) → time_to_minutes s = 0) := by
  refine ⟨?_, ?_, ?_⟩
  · simp only [time_to_minutes]
    split
    · norm_num
    · split
      · norm_num
      · split
        · exact le_trans zero_le_one (le_max_left 1 _)
        · split
          · positivity
          · split
            · positivity
            · split
              · positivity
              · split
                · positivity
                · split
                  · positivity
                  · norm_num
  · intro hds
    by_cases h1 : s = "" ∨ s = "Недавно"
    · simp [time_to_minutes, h1]
    · simp [time_to_minutes, h1, hds]
  · intro hu
    have h1 := hu "секунд" (by simp)
    have h2 := hu "минут" (by simp)
    have h3 := hu "час" (by simp)
    have h4 := hu "день" (by simp)
    have h5 := hu "дня" (by simp)
    have h6 := hu "дней" (by simp)
    have h7 := hu "недел" (by simp)
    have h8 := hu "месяц" (by simp)
    simp [time_to_minutes, h1, h2, h3, h4, h5, h6, h7, h8]

/-- Witness for C5 at the garbage input `"xyz"`. -/
theorem normalizer_never_fails_witness :
    0 ≤ time_to_minutes "xyz" ∧ time_to_minutes "xyz" = 0 :=
  ⟨(normalizer_never_fails "xyz").1, (normalizer_never_fails "xyz").2.1 (by decide)⟩

/-- C3: the Recency Normalizer's value table (spec unit names denote the
code's Russian lexicon; the sentinel "recent" is `"Недавно"`), plus the
algorithm shape: the first digit run is the value, unit keywords are
tested in the order seconds, minutes, hours, days, weeks, months, with
multipliers 1, 60, 1440, 10080, 43200 (seconds use `max 1 (value / 60)`). -/
theorem normalizer_table_correct :
    (time_to_minutes "" = 0
      ∧ time_to_minutes "Недавно" = 0
      ∧ time_to_minutes "5 минут" = 5
      ∧ time_to_minutes "2 часа" = 120
      ∧ time_to_minutes "45 секунд" = 1
      ∧ time_to_minutes "3 дня" = 4320
      ∧ time_to_minutes "1 неделя" = 10080
      ∧ time_to_minutes "garbled text" = 0)
    ∧ (∀ s : String, firstDigitRun (lowerStr s) = [] → time_to_minutes s = 0)
    ∧ (∀ s : String, ¬ (s = "" ∨ s = "Недавно") → firstDigitRun (lowerStr s) ≠ [] →
        substrB "секунд" (lowerStr s) = true →
        time_to_minutes s = max 1 ((digitsToNat (firstDigitRun (lowerStr s)) : Int) / 60))
    ∧ (∀ s : String, ¬ (s = "" ∨ s = "Недавно") → firstDigitRun (lowerStr s) ≠ [] →
        substrB "секунд" (lowerStr s) = false → substrB "минут" (lowerStr s) = true →
        time_to_minutes s = (digitsToNat (firstDigitRun (lowerStr s)) : Int))
    ∧ (∀ s : String, ¬ (s = "" ∨ s = "Недавно") → firstDigitRun (lowerStr s) ≠ [] →
        substrB "секунд" (lowerStr s) = false → substrB "минут" (lowerStr s) = false →
        substrB "час" (lowerStr s) = true →
        time_to_minutes s = (digitsToNat (firstDigitRun (lowerStr s)) : Int) * 60)
    ∧ (∀ s : String, ¬ (s = "" ∨ s = "Недавно") → firstDigitRun (lowerStr s) ≠ [] →
        substrB "секунд" (lowerStr s) = false → substrB "минут" (lowerStr s) = false →
        substrB "час" (lowerStr s) = false →
        (substrB "день" (lowerStr s) = true ∨ substrB "дня" (lowerStr s) = true
          ∨ substrB "дней" (lowerStr s) = true) →
        time_to_minutes s = (digitsToNat (firstDigitRun (lowerStr s)) : Int) * 24 * 60)
    ∧ (∀ s : String, ¬ (s = "" ∨ s = "Недавно") → firstDigitRun (lowerStr s) ≠ [] →
        substrB "секунд" (lowerStr s) = false → substrB "минут" (lowerStr s) = false →
        substrB "час" (lowerStr s) = false →
        substrB "день" (lowerStr s) = false → substrB "дня" (lowerStr s) = false →
        substrB "дней" (lowerStr s) = false →
        substrB "недел" (lowerStr s) = true →
        time_to_minutes s = (digitsToNat (firstDigitRun (lowerStr s)) : Int) * 7 * 24 * 60)
    ∧ (∀ s : String, ¬ (s = "" ∨ s = "Недавно") → firstDigitRun (lowerStr s) ≠ [] →
        substrB "секунд" (lowerStr s) = false → substrB "минут" (lowerStr s) = false →
        substrB "час" (lowerStr s) = false →
        substrB "день" (lowerStr s) = false → substrB "дня" (lowerStr s) = false →
        substrB "дней" (lowerStr s) = false →
        substrB "недел" (lowerStr s) = false →
        substrB "месяц" (lowerStr s) = true →
        time_to_minutes s = (digitsToNat (firstDigitRun (lowerStr s)) : Int) * 30 * 24 * 60) := by
  refine ⟨by decide, ?_, ?_, ?_, ?_, ?_, ?_, ?_⟩
  · intro s hds
    exact (normalizer_never_fails s).2.1 hds
  · intro s h1 hds hsec
    simp [time_to_minutes, h1, hds, hsec]
  · intro s h1 hds hsec hmin
    simp [time_to_minutes, h1, hds, hsec, hmin]
  · intro s h1 hds hsec hmin hh
    simp [time_to_minutes, h1, hds, hsec, hmin, hh]
  · intro s h1 hds hsec hmin hh hd
    simp only [time_to_minutes, if_neg h1, hds, if_neg hds, hsec, hmin, hh]
    simp [hd]
  · intro s h1 hds hsec hmin hh hd1 hd2 hd3 hw
    simp [time_to_minutes, h1, hds, hsec, hmin, hh, hd1, hd2, hd3, hw]
  · intro s h1 hds hsec hmin hh hd1 hd2 hd3 hw hm
    simp [time_to_minutes, h1, hds, hsec, hmin, hh, hd1, hd2, hd3, hw, hm]

/-- Witness for C3 instantiating the minutes rule at `"7 минут"`. -/
theorem normalizer_table_correct_witness :
    time_to_minutes "7 минут" = 7 := by
  rw [normalizer_table_correct.2.2.2.1 "7 минут" (by decide) (by decide)
    (by decide) (by decide)]
  decide

/-- A fetch failure at the head of the remaining page list aborts the
loop, returning exactly the accumulator extended by the earlier pages'
records. -/
theorem parse_orders_pages_abort (fetch : Nat → PageResult) (k : Nat) (os : Nat → List Order)
    (hfail : fetch k = .timeout ∨ fetch k = .connError ∨ ∃ st, fetch k = .httpError st) :
    ∀ (l₁ : List Nat) (acc : List Order),
      (∀ j ∈ l₁, fetch j = .ok (os j) ∧ os j ≠ []) →
      ∀ l₂ : List Nat,
        parse_orders_pages fetch acc (l₁ ++ k :: l₂) = acc ++ (l₁.map os).flatten := by
  intro l₁
  induction l₁ with
  | nil =>
    intro acc _ l₂
    rcases hfail with h | h | ⟨st, h⟩ <;> simp [parse_orders_pages, h]
  | cons p rest ih =>
    intro acc hall l₂
    have hp := hall p (List.mem_cons_self p rest)
    simp only [List.cons_append, parse_orders_pages, hp.1]
    rw [if_neg hp.2, List.append_eq]
    rw [ih (acc ++ os p) (fun j hj => hall j (List.mem_cons_of_mem _ hj)) l₂]
    simp

/-- C6: if pages `1..k-1` succeed with records and page `k` fails with a
timeout, connection error or non-success status, the paginated adapter
returns (a chronological reordering of) exactly the records extracted
from pages `1..k-1`, and the remaining pages are never consulted: the
result is unchanged under any reinterpretation of the fetch behaviour
beyond page `k`.  The embedding is a total function, so no failure
escapes as an exception. -/
theorem paginated_partial_results (fetch : Nat → PageResult) (max_pages k : Nat)
    (os : Nat → List Order) (hk1 : 1 ≤ k) (hk2 : k ≤ max_pages)
    (hok : ∀ j, 1 ≤ j → j < k → fetch j = .ok (os j) ∧ os j ≠ [])
    (hfail : fetch k = .timeout ∨ fetch k = .connError ∨ ∃ st, fetch k = .httpError st) :
    List.Perm (parse_orders fetch max_pages) (((List.range' 1 (k - 1)).map os).flatten)
    ∧ (∀ fetch' : Nat → PageResult, (∀ j, j ≤ k → fetch' j = fetch j) →
        parse_orders fetch' max_pages = parse_orders fetch max_pages) := by
  have hdecomp : List.range' 1 max_pages
      = List.range' 1 (k - 1) ++ k :: List.range' (k + 1) (max_pages - k) := by
    have h1 := List.range'_append_1 1 (k - 1) ((max_pages - k) + 1)
    have e1 : 1 + (k - 1) = k := by omega
    have e2 : ((max_pages - k) + 1) + (k - 1) = max_pages := by omega
    have e3 : List.range' k ((max_pages - k) + 1) = k :: List.range' (k + 1) (max_pages - k) := by
      have := List.range'_succ k (max_pages - k) 1
      simpa using this
    rw [e1] at h1
    rw [e2] at h1
    rw [← h1, e3]
  have hmem : ∀ j ∈ List.range' 1 (k - 1), fetch j = .ok (os j) ∧ os j ≠ [] := by
    intro j hj
    rcases List.mem_range'.mp hj with ⟨i, hi, rfl⟩
    exact hok (1 + 1 * i) (by omega) (by omega)
  have habort := parse_orders_pages_abort fetch k os hfail (List.range' 1 (k - 1)) []
    hmem (List.range' (k + 1) (max_pages - k))
  have hval : parse_orders fetch max_pages
      = _sort_orders_by_time (((List.range' 1 (k - 1)).map os).flatten) := by
    rw [parse_orders, hdecomp, habort]
    simp
  constructor
  · rw [hval]
    exact List.perm_insertionSort keyGE _
  · intro fetch' hagree
    have hfail' : fetch' k = .timeout ∨ fetch' k = .connError
        ∨ ∃ st, fetch' k = .httpError st := by
      rw [hagree k (le_refl k)]
      exact hfail
    have hmem' : ∀ j ∈ List.range' 1 (k - 1), fetch' j = .ok (os j) ∧ os j ≠ [] := by
      intro j hj
      have hb := List.mem_range'.mp hj
      rcases hb with ⟨i, hi, rfl⟩
      rw [hagree (1 + 1 * i) (by omega)]
      exact hok (1 + 1 * i) (by omega) (by omega)
    have habort' := parse_orders_pages_abort fetch' k os hfail' (List.range' 1 (k - 1)) []
      hmem' (List.range' (k + 1) (max_pages - k))
    have hval' : parse_orders fetch' max_pages
        = _sort_orders_by_time (((List.range' 1 (k - 1)).map os).flatten) := by
      rw [parse_orders, hdecomp, habort']
      simp
    rw [hval, hval']

/-- A concrete record extracted from page 1. -/
def orderP1 : Order := { id := some "p1", published := some "5 минут" }

/-- A fetch behaviour: page 1 succeeds with one record, later pages time
out. -/
def fetchTimeoutAt2 : Nat → PageResult := fun j =>
  if j = 1 then .ok [orderP1] else .timeout

/-- Witness for C6: with a timeout on page 2 of 3, the adapter still
returns the page-1 record. -/
theorem paginated_partial_results_witness :
    List.Perm (parse_orders fetchTimeoutAt2 3) [orderP1] := by
  have h := (paginated_partial_results fetchTimeoutAt2 3 2 (fun _ => [orderP1])
      (by omega) (by omega)
      (by
        intro j hj1 hj2
        have hj : j = 1 := by omega
        subst hj
        exact ⟨rfl, by decide⟩)
      (Or.inl rfl)).1
  have e : ((List.range' 1 (2 - 1)).map (fun _ : Nat => [orderP1])).flatten = [orderP1] := by
    decide
  rw [e] at h
  exact h

/-- Python `str.strip`: drop whitespace from both ends (modelled over the
whitespace characters the sources can contain). -/
def pyStrip (s : String) : String :=
  String.mk (((s.toList.dropWhile Char.isWhitespace).reverse.dropWhile Char.isWhitespace).reverse)

/-- A parsed document node, as BeautifulSoup exposes it: an element with
tag name, multi-valued class attribute, other attributes, and children,
or a text leaf.  Equality is structural, matching `Tag.__eq__` (which
compares rendered markup), and `class*=` selectors see the class string
as the classes joined by single spaces. -/
inductive Node where
  | tag (name : String) (classes : List String) (attrs : List (String × String)) (children : List Node)
  | text (s : String)

mutual

/-- Decidable structural equality on nodes. -/
def Node.decEq : (a b : Node) → Decidable (a = b)
  | .text s, .text t =>
    match String.decEq s t with
    | isTrue h => isTrue (by rw [h])
    | isFalse h => isFalse (by intro hc; injection hc; simp_all)
  | .text _, .tag _ _ _ _ => isFalse (by intro hc; exact Node.noConfusion hc)
  | .tag _ _ _ _, .text _ => isFalse (by intro hc; exact Node.noConfusion hc)
  | .tag n c a ch, .tag n' c' a' ch' =>
    match Node.decEqList ch ch' with
    | isTrue h4 =>
      match (inferInstance : Decidable (n = n' ∧ c = c' ∧ a = a')) with
      | isTrue h => isTrue (by rw [h.1, h.2.1, h.2.2, h4])
      | isFalse h => isFalse (by
          intro hc
          injection hc with e1 e2 e3 e4
          exact h ⟨e1, e2, e3⟩)
    | isFalse h4 => isFalse (by
        intro hc
        injection hc with e1 e2 e3 e4
        exact h4 e4)

/-- Decidable structural equality on node lists. -/
def Node.decEqList : (xs ys : List Node) → Decidable (xs = ys)
  | [], [] => isTrue rfl
  | [], _ :: _ => isFalse (by intro hc; exact List.noConfusion hc)
  | _ :: _, [] => isFalse (by intro hc; exact List.noConfusion hc)
  | x :: xs, y :: ys =>
    match Node.decEq x y, Node.decEqList xs ys with
    | isTrue h1, isTrue h2 => isTrue (by rw [h1, h2])
    | isFalse h1, _ => isFalse (by intro hc; injection hc; simp_all)
    | _, isFalse h2 => isFalse (by intro hc; injection hc; simp_all)

end

instance : DecidableEq Node := Node.decEq

mutual

/-- `get_text()`: concatenation of all text leaves of the subtree. -/
def Node.getText : Node → String
  | .text s => s
  | .tag _ _ _ cs => Node.getTextList cs

/-- `get_text()` over a child list. -/
def Node.getTextList : List Node → String
  | [] => ""
  | c :: cs => Node.getText c ++ Node.getTextList cs

end

mutual

/-- `get_text(strip=True)`: every text leaf stripped, then joined. -/
def Node.getTextStrip : Node → String
  | .text s => pyStrip s
  | .tag _ _ _ cs => Node.getTextStripList cs

/-- `get_text(strip=True)` over a child list. -/
def Node.getTextStripList : List Node → String
  | [] => ""
  | c :: cs => Node.getTextStrip c ++ Node.getTextStripList cs

end

mutual

/-- Pre-order (document-order) list of the element nodes of a subtree,
including the root when it is an element, each paired with its ancestor
chain (innermost first) extending `anc`. -/
def Node.elemsWithAnc (anc : List Node) : Node → List (Node × List Node)
  | .text _ => []
  | .tag n c a cs =>
    (Node.tag n c a cs, anc) :: Node.elemsListWithAnc (Node.tag n c a cs :: anc) cs

/-- Pre-order element collection over a child list. -/
def Node.elemsListWithAnc (anc : List Node) : List Node → List (Node × List Node)
  | [] => []
  | c :: cs => Node.elemsWithAnc anc c ++ Node.elemsListWithAnc anc cs

end

mutual

/-- Pre-order list of the text leaves of a subtree with their ancestor
chains (what `find_all(text=...)` followed by `find_parent` walks see). -/
def Node.textsWithAnc (anc : List Node) : Node → List (String × List Node)
  | .text s => [(s, anc)]
  | .tag n c a cs => Node.textsListWithAnc (Node.tag n c a cs :: anc) cs

/-- Pre-order text collection over a child list. -/
def Node.textsListWithAnc (anc : List Node) : List Node → List (String × List Node)
  | [] => []
  | c :: cs => Node.textsWithAnc anc c ++ Node.textsListWithAnc anc cs

end

/-- Tag name of a node (text leaves have none). -/
def Node.nameOf : Node → String
  | .tag n _ _ _ => n
  | .text _ => ""

/-- Class list of a node. -/
def Node.classesOf : Node → List String
  | .tag _ c _ _ => c
  | .text _ => []

/-- Attribute list of a node. -/
def Node.attrsOf : Node → List (String × String)
  | .tag _ _ a _ => a
  | .text _ => []

/-- The class attribute as one string, as `[class*=...]` matches it. -/
def Node.classStr (n : Node) : String :=
  String.intercalate " " n.classesOf

/-- The `find_all` search space of a node: its strict descendant elements
in document order (BeautifulSoup searches descendants only). -/
def Node.descElems : Node → List (Node × List Node)
  | .text _ => []
  | .tag n c a cs => Node.elemsListWithAnc [Node.tag n c a cs] cs

/-- `_is_order_block` (`freelancespace_parser_simple.py` lines 208-252). -/
def _is_order_block (element : Node) : Bool :=
  let text := element.getText
  let has_action_button := ["Откликнуться", "Подать заявку", "Отправить предложение"].any
    (fun w => substrB w text)
  let has_price := ["₽", "руб", "По договоренности", "от ", "до ", "руб."].any
    (fun w => substrB w text)
  let has_time := ["назад", "час", "день", "минут", "сегодня", "вчера"].any
    (fun w => substrB w text)
  let has_order_indicators := ["категори", "заказ", "проект", "задач", "работ", "услуг",
    "исполнител", "заказчик", "автор", "опубликован", "создан"].any
    (fun w => substrB w text)
  let is_substantial := 50 < (pyStrip text).length
  let has_order_link := element.descElems.any (fun d =>
    d.1.nameOf == "a" && (match d.1.attrsOf.lookup "href" with
      | some href => substrB "order" href || substrB "task" href || substrB "project" href
      | none => false))
  (has_action_button || has_order_link)
    && (has_price || has_time || has_order_indicators)
    && is_substantial

/-- Strategy 1 of `_parse_html_response` (lines 152-164): for every text
leaf containing the action cue, climb at most 15 ancestors and append
the first order block found — with no membership check. -/
def action_cue_blocks (soup : Node) : List Node :=
  ((Node.textsWithAnc [] soup).filter (fun p => substrB "Откликнуться" p.1)).filterMap
    (fun p => (p.2.take 15).find? _is_order_block)

/-- The append loop of strategy 2 (lines 174-178): a candidate is added
iff it classifies as an order block and is not yet collected. -/
def append_new_blocks (acc : List Node) : List Node → List Node
  | [] => acc
  | b :: rest =>
    if _is_order_block b ∧ b ∉ acc then append_new_blocks (acc ++ [b]) rest
    else append_new_blocks acc rest

/-- The hits of the four CSS selectors of strategy 2 (lines 167-172), per
selector in document order. -/
def css_selector_hits (soup : Node) : List Node :=
  let elems := (Node.elemsWithAnc [] soup).map Prod.fst
  (elems.filter (fun n => n.nameOf == "div" && n.classesOf.contains "border"
      && n.classesOf.contains "border-gray-300"))
  ++ (elems.filter (fun n => n.nameOf == "div" && substrB "border" n.classStr))
  ++ (elems.filter (fun n => n.nameOf == "div" && substrB "shadow" n.classStr))
  ++ (elems.filter (fun n => n.nameOf == "div" && substrB "rounded" n.classStr))

/-- Strategy 3's climb (lines 181-190): per listing link, climb at most 10
ancestors to the first order block not yet collected; note the climb
continues past already-collected blocks. -/
def link_blocks_add (acc : List Node) : List (List Node) → List Node
  | [] => acc
  | anc :: rest =>
    match (anc.take 10).find? (fun p => _is_order_block p && !(acc.contains p)) with
    | some p => link_blocks_add (acc ++ [p]) rest
    | none => link_blocks_add acc rest

/-- Ancestor chains of the listing links (`a` with `'order?id='` in the
href, line 181), in document order. -/
def order_link_anc (soup : Node) : List (List Node) :=
  ((Node.elemsWithAnc [] soup).filter (fun p =>
    p.1.nameOf == "a" && (match p.1.attrsOf.lookup "href" with
      | some href => substrB "order?id=" href
      | none => false))).map Prod.snd

/-- The Block Locator of `_parse_html_response` (lines 151-192): strategy
1's blocks, then strategy 2's new hits, then strategy 3's new hits. -/
def order_blocks_of (soup : Node) : List Node :=
  link_blocks_add (append_new_blocks (action_cue_blocks soup) (css_selector_hits soup))
    (order_link_anc soup)

/-- Strategy 2's append loop preserves distinctness: it adds only blocks
not yet collected. -/
theorem append_new_blocks_nodup (l : List Node) :
    ∀ acc : List Node, acc.Nodup → (append_new_blocks acc l).Nodup := by
  induction l with
  | nil => intro acc h; simpa [append_new_blocks] using h
  | cons b rest ih =>
    intro acc h
    by_cases hc : _is_order_block b ∧ b ∉ acc
    · rw [append_new_blocks, if_pos hc]
      apply ih
      simp [List.nodup_append, h, hc.2]
    · rw [append_new_blocks, if_neg hc]
      exact ih acc h

/-- Strategy 3's climb loop preserves distinctness: the chosen ancestor is
explicitly required to be uncollected. -/
theorem link_blocks_add_nodup (l : List (List Node)) :
    ∀ acc : List Node, acc.Nodup → (link_blocks_add acc l).Nodup := by
  induction l with
  | nil => intro acc h; simpa [link_blocks_add] using h
  | cons anc rest ih =>
    intro acc h
    rw [link_blocks_add]
    cases hf : (anc.take 10).find? (fun p => _is_order_block p && !(acc.contains p)) with
    | none => exact ih acc h
    | some p =>
      have hp := List.find?_some hf
      have hnotmem : p ∉ acc := by
        simp only [Bool.and_eq_true, Bool.not_eq_true'] at hp
        simpa using hp.2
      apply ih
      simp [List.nodup_append, h, hnotmem]

/-- C7 (amended): strategies 2 and 3 deduplicate against the accumulated
block list, so the locator output has no duplicates whenever the
action-cue pass itself yields pairwise-distinct blocks; the action-cue
pass, however, appends once per cue without any membership check. -/
theorem block_locator_dedup (soup : Node)
    (h : (action_cue_blocks soup).Nodup) : (order_blocks_of soup).Nodup := by
  rw [order_blocks_of]
  exact link_blocks_add_nodup _ _ (append_new_blocks_nodup _ _ h)

/-- An order block containing two action cues. -/
def dupCueBlock : Node :=
  .tag "div" ["item"] [] [
    .text "Откликнуться",
    .text "Откликнуться",
    .text "Цена 1000 ₽ за разработку сайта, опубликовано два часа назад, подробное описание" ]

/-- A document whose single order block carries two action cues. -/
def dupCueDoc : Node := .tag "[document]" [] [] [dupCueBlock]

/-- C7 counterexample: the Block Locator emits the same block twice when
two action cues inside it each reach it during the strategy-1 climb, so
the output is not duplicate-free. -/
theorem block_locator_duplicate_counterexample :
    order_blocks_of dupCueDoc = [dupCueBlock, dupCueBlock]
    ∧ ¬ (order_blocks_of dupCueDoc).Nodup := by
  have he : order_blocks_of dupCueDoc = [dupCueBlock, dupCueBlock] := by decide
  refine ⟨he, ?_⟩
  rw [he]
  simp

/-- The same block with a single action cue. -/
def singleCueBlock : Node :=
  .tag "div" ["item"] [] [
    .text "Откликнуться",
    .text "Цена 1000 ₽ за разработку сайта, опубликовано два часа назад, подробное описание" ]

/-- A document whose single order block carries one action cue. -/
def singleCueDoc : Node := .tag "[document]" [] [] [singleCueBlock]

/-- Witness for C7's amended theorem: with distinct strategy-1 blocks the
locator output is duplicate-free. -/
theorem block_locator_dedup_witness : (order_blocks_of singleCueDoc).Nodup :=
  block_locator_dedup singleCueDoc
    (by
      have he : action_cue_blocks singleCueDoc = [singleCueBlock] := by decide
      rw [he]
      simp)

/-- `block.find('div', class_=[...])` with the author-container class list
(line 298): the first descendant div carrying any of those classes. -/
def find_author_container (block : Node) : Option Node :=
  (block.descElems.map Prod.fst).find? (fun d => d.nameOf == "div" &&
    (d.classesOf.contains "flex" || d.classesOf.contains "items-start"
      || d.classesOf.contains "md:items-center" || d.classesOf.contains "gap-4"))

/-- Shape filter on a hidden-span author candidate (line 306). -/
def author_ok1 (title t : String) : Bool :=
  t.length < 50 && !(t == title) && !(substrB "..." t)

/-- Shape filter on a fallback-span author candidate (lines 317-318),
including the guard `not author_text.endswith(author_text[:len // 2])`. -/
def author_ok2 (title t : String) : Bool :=
  t.length < 50 && !(t == title) && !(substrB "..." t)
    && !((t.toList.take (t.length / 2)).isSuffixOf t.toList)

/-- The author extraction of `_extract_order_data` (lines 295-326): the
hidden `sm:inline` span path first, then the fallback `font-semibold`
span path with the duplicated-name collapse branch. -/
def extract_author (block : Node) (title : String) : String :=
  match find_author_container block with
  | none => "Не указан"
  | some container =>
    let hidden := (container.descElems.map Prod.fst).filter
      (fun d => d.nameOf == "span" && d.classesOf.contains "hidden")
    match hidden.find? (fun sp => sp.classesOf.contains "sm:inline"
        && author_ok1 title sp.getTextStrip) with
    | some sp => sp.getTextStrip
    | none =>
      let spans := (container.descElems.map Prod.fst).filter
        (fun d => d.nameOf == "span"
          && (d.classesOf.contains "text-gray-800" || d.classesOf.contains "font-semibold"))
      match spans.find? (fun sp => sp.classesOf.contains "font-semibold") with
      | none => "Не указан"
      | some sp =>
        let t := sp.getTextStrip
        if author_ok2 title t ∧ 2 < t.length then
          if t.toList.take (t.length / 2) = t.toList.drop (t.length / 2) then
            String.mk (t.toList.take (t.length / 2))
          else t
        else "Не указан"

/-- A list is a leading piece of itself extended by anything. -/
theorem isPrefixOf_self_append : ∀ (l r : List Char), l.isPrefixOf (l ++ r) = true := by
  intro l r
  induction l with
  | nil => simp [List.isPrefixOf]
  | cons c cs ih => simp [List.isPrefixOf, ih]

/-- A string made of two identical halves ends with its own first half, so
the `endswith` guard rejects it. -/
theorem doubled_self_suffix (l : List Char)
    (h : l.take (l.length / 2) = l.drop (l.length / 2)) :
    (l.take (l.length / 2)).isSuffixOf l = true := by
  have hsplit : l = l.take (l.length / 2) ++ l.take (l.length / 2) := by
    conv_lhs => rw [← List.take_append_drop (l.length / 2) l]
    rw [← h]
  rw [List.isSuffixOf]
  generalize hA : l.take (l.length / 2) = A at hsplit ⊢
  conv_lhs => rw [hsplit]
  rw [List.reverse_append]
  exact isPrefixOf_self_append _ _

/-- The author span `<span class="text-gray-800 font-semibold">IvanIvan</span>`. -/
def dupAuthorSpan : Node :=
  .tag "span" ["text-gray-800", "font-semibold"] [] [.text "IvanIvan"]

/-- An order block whose author container offers only the doubled name
through the fallback span path. -/
def dupAuthorBlock : Node :=
  .tag "div" [] [] [.tag "div" ["flex", "gap-4"] [] [dupAuthorSpan]]

/-- The same doubled name exposed through the hidden `sm:inline` span
path. -/
def hiddenAuthorBlock : Node :=
  .tag "div" [] [] [.tag "div" ["flex", "gap-4"] [] [
    .tag "span" ["hidden", "sm:inline"] [] [.text "IvanIvan"]]]

/-- C8: the duplicated-name collapse is dead code.  On the fallback span
path the guard `not author_text.endswith(author_text[:len // 2])`
rejects every exactly-doubled string (third conjunct, in general), so
`"IvanIvan"` yields the `"Не указан"` sentinel rather than `"Ivan"`;
on the hidden-span path the doubled string is returned uncollapsed. -/
theorem author_doubled_not_collapsed :
    extract_author dupAuthorBlock "Заказ" = "Не указан"
    ∧ extract_author hiddenAuthorBlock "Заказ" = "IvanIvan"
    ∧ (∀ title t : String,
        t.toList.take (t.length / 2) = t.toList.drop (t.length / 2) →
        author_ok2 title t = false) := by
  refine ⟨by decide, by decide, ?_⟩
  intro title t h
  have hs : (t.toList.take (t.toList.length / 2)).isSuffixOf t.toList = true :=
    doubled_self_suffix t.toList h
  simp only [author_ok2]
  rw [show (t.length : Nat) = t.toList.length from rfl, hs]
  simp

/-- Witness for C8's general conjunct at the doubled string `"abab"`. -/
theorem author_doubled_not_collapsed_witness :
    author_ok2 "Заказ" "abab" = false :=
  author_doubled_not_collapsed.2.2 "Заказ" "abab" (by decide)

/-- Worker for Python `str.split(sep)` over char lists: `skip` counts
separator characters still to consume after a match.  Leftmost,
non-overlapping occurrences split the string; pieces accumulate
char-by-char. -/
def pySplitGo (sep : List Char) : List Char → Nat → List (List Char)
  | [], _ => [[]]
  | _ :: cs, skip + 1 => pySplitGo sep cs skip
  | c :: cs, 0 =>
    if sep.isPrefixOf (c :: cs) ∧ sep ≠ [] then
      [] :: pySplitGo sep cs (sep.length - 1)
    else
      match pySplitGo sep cs 0 with
      | [] => [[c]]
      | h :: t => (c :: h) :: t

/-- Python `str.split(sep)` for a nonempty separator. -/
def pySplit (sep s : List Char) : List (List Char) :=
  pySplitGo sep s 0

/-- The id derivation of `_extract_order_data`
(`freelancespace_parser_simple.py` lines 284-293):
`url.split('order?id=')[1].split('&')[0]` when the marker occurs in the
url (the marker occurs iff the first split has a second part), falling
back to `str(abs(hash(title + url)))` when absent or when the extracted
value is empty (falsy). -/
def fs_order_id (pyHash : String → Int) (title url : String) : String :=
  match pySplit "order?id=".toList url.toList with
  | _ :: second :: _ =>
    let cand := (pySplit ['&'] second).headD []
    if cand ≠ [] then String.mk cand else toString (pyHash (title ++ url)).natAbs
  | _ => toString (pyHash (title ++ url)).natAbs

/-- One attempt of `re.search(r'/projects/(\d+)/', href)` at a fixed
start: the literal, then a maximal nonempty digit run, then `'/'`
(backtracking over a shorter run cannot succeed, since the next char
would be a digit). -/
def fl_match_at (l : List Char) : Option (List Char) :=
  if "/projects/".toList.isPrefixOf l then
    let ds := (l.drop 10).takeWhile Char.isDigit
    if ds ≠ [] ∧ (l.drop (10 + ds.length)).head? = some '/' then some ds else none
  else none

/-- `re.search` scans start positions left to right. -/
def fl_find_projects : List Char → Option (List Char)
  | [] => none
  | c :: cs =>
    match fl_match_at (c :: cs) with
    | some ds => some ds
    | none => fl_find_projects cs

/-- The id derivation of `FLParser._extract_order_from_individual_page`
(`fl_parser.py` lines 124-130): `fl_` plus the numeric path segment when
the regex matches, else `fl_` plus `abs(hash(href)) % 1000000`. -/
def fl_order_id (pyHash : String → Int) (href : String) : String :=
  match fl_find_projects href.toList with
  | some ds => "fl_" ++ String.mk ds
  | none => "fl_" ++ toString ((pyHash href).natAbs % 1000000)

/-- C9 counterexample: for a FreelanceSpace url that does contain a
numeric path segment (`123`), the derived id is the `order?id=` query
value `"abc"` — not the numeric path segment and not a hash of
(title, url). -/
theorem fs_id_counterexample :
    fs_order_id (fun _ => 0) "T" "https://freelancespace.ru/123/order?id=abc" = "abc"
    ∧ "abc" ≠ "123" := by
  constructor
  · decide
  · decide

/-- Consuming exactly the skip counter drops that prefix of the input. -/
theorem pySplitGo_skip (sep : List Char) :
    ∀ (q w : List Char), pySplitGo sep (q ++ w) q.length = pySplitGo sep w 0 := by
  intro q
  induction q with
  | nil => intro w; rfl
  | cons c q' ih => intro w; exact ih w

/-- Splitting never yields an empty list of pieces. -/
theorem pySplitGo_ne_nil (sep : List Char) :
    ∀ (s : List Char) (skip : Nat), pySplitGo sep s skip ≠ [] := by
  intro s
  induction s with
  | nil => intro skip; cases skip <;> simp [pySplitGo]
  | cons c cs ih =>
    intro skip
    cases skip with
    | succ k => simpa [pySplitGo] using ih k
    | zero =>
      rw [pySplitGo]
      split
      · simp
      · cases h : pySplitGo sep cs 0 with
        | nil => simp [h]
        | cons hd tl => simp [h]

/-- Characters distinct from the separator's head pass through the
splitter, extending the first piece of the remainder's split. -/
theorem pySplitGo_no_head (o : Char) (sep' : List Char) :
    ∀ (p s : List Char), (∀ c ∈ p, c ≠ o) →
      pySplitGo (o :: sep') (p ++ s) 0
        = (p ++ (pySplitGo (o :: sep') s 0).headD []) :: (pySplitGo (o :: sep') s 0).tail := by
  intro p
  induction p with
  | nil =>
    intro s _
    simp only [List.nil_append]
    cases h : pySplitGo (o :: sep') s 0 with
    | nil => exact absurd h (pySplitGo_ne_nil _ _ _)
    | cons hd tl => simp
  | cons c p' ih =>
    intro s hp
    have hco : c ≠ o := hp c (List.mem_cons_self c p')
    have hpref : ((o :: sep').isPrefixOf (c :: (p' ++ s))) = false := by
      simp only [List.isPrefixOf, Bool.and_eq_false_iff]
      exact Or.inl (beq_eq_false_iff_ne.mpr (Ne.symm hco))
    rw [List.cons_append, pySplitGo, if_neg (by simp [hpref])]
    rw [ih s (fun d hd => hp d (List.mem_cons_of_mem _ hd))]
    simp

/-- A leading separator occurrence yields an empty piece; splitting
restarts right after the separator. -/
theorem pySplitGo_match_head (o : Char) (sep' w : List Char) :
    pySplitGo (o :: sep') ((o :: sep') ++ w) 0 = [] :: pySplitGo (o :: sep') w 0 := by
  rw [List.cons_append, pySplitGo, if_pos ?_]
  · have hlen : (o :: sep').length - 1 = sep'.length := by simp
    rw [hlen, pySplitGo_skip]
  · constructor
    · exact isPrefixOf_self_append (o :: sep') w
    · simp

/-- With no occurrence of the separator, the input is a single piece. -/
theorem pySplitGo_not_contains (sep : List Char) :
    ∀ s : List Char, containsSeq sep s = false → pySplitGo sep s 0 = [s] := by
  intro s
  induction s with
  | nil => intro _; rfl
  | cons c cs ih =>
    intro h
    rw [containsSeq] at h
    simp only [Bool.or_eq_false_iff] at h
    rw [pySplitGo, if_neg (by simp [h.1])]
    rw [ih h.2]

/-- `takeWhile isDigit` recovers exactly a digit run terminated by a
slash. -/
theorem takeWhile_digits_append (post : List Char) :
    ∀ ds : List Char, (∀ c ∈ ds, c.isDigit) →
      ((ds ++ '/' :: post).takeWhile Char.isDigit) = ds := by
  intro ds
  induction ds with
  | nil =>
    intro _
    rw [List.nil_append, List.takeWhile_cons]
    simp
  | cons c cs ih =>
    intro h
    have hc : c.isDigit := h c (List.mem_cons_self c cs)
    rw [List.cons_append, List.takeWhile_cons, ih (fun d hd => h d (List.mem_cons_of_mem _ hd))]
    simp [hc]

/-- FL.ru id, positive case: a leading `/projects/<digits>/` yields the
digit run. -/
theorem fl_order_id_digits (pyHash : String → Int) (ds post : List Char)
    (hds : ds ≠ []) (hdig : ∀ c ∈ ds, c.isDigit) :
    fl_order_id pyHash (String.mk ("/projects/".toList ++ (ds ++ '/' :: post)))
      = "fl_" ++ String.mk ds := by
  have hmatch : fl_match_at ("/projects/".toList ++ (ds ++ '/' :: post)) = some ds := by
    rw [fl_match_at, if_pos (isPrefixOf_self_append _ _)]
    have hdrop : ("/projects/".toList ++ (ds ++ '/' :: post)).drop 10 = ds ++ '/' :: post :=
      List.drop_left' (by decide)
    rw [hdrop, takeWhile_digits_append post ds hdig]
    rw [if_pos ?_]
    refine ⟨hds, ?_⟩
    rw [← List.drop_drop, hdrop, List.drop_left' rfl]
    rfl
  have hfind : fl_find_projects ("/projects/".toList ++ (ds ++ '/' :: post)) = some ds := by
    rw [show ("/projects/".toList ++ (ds ++ '/' :: post))
        = '/' :: ("projects/".toList ++ (ds ++ '/' :: post)) from rfl] at hmatch ⊢
    rw [fl_find_projects, hmatch]
  rw [fl_order_id]
  rw [show (String.mk ("/projects/".toList ++ (ds ++ '/' :: post))).toList
      = "/projects/".toList ++ (ds ++ '/' :: post) from rfl]
  rw [hfind]

/-- Reduction of `fs_order_id` once the first split is known to have a
second part. -/
theorem fs_order_id_eval (pyHash : String → Int) (title url : String)
    (P second : List Char) (T : List (List Char))
    (h : pySplit "order?id=".toList url.toList = P :: second :: T) :
    fs_order_id pyHash title url =
      (if ((pySplit ['&'] second).headD []) ≠ [] then String.mk ((pySplit ['&'] second).headD [])
       else toString (pyHash (title ++ url)).natAbs) := by
  simp only [fs_order_id, h]

/-- FreelanceSpace id, negative case: no `order?id=` marker means the
hash of title plus url. -/
theorem fs_order_id_hash (pyHash : String → Int) (title url : String)
    (h : containsSeq "order?id=".toList url.toList = false) :
    fs_order_id pyHash title url = toString (pyHash (title ++ url)).natAbs := by
  have h1 : pySplit "order?id=".toList url.toList = [url.toList] :=
    pySplitGo_not_contains _ url.toList h
  unfold fs_order_id
  rw [h1]

/-- FreelanceSpace id, positive case: the marker's query value up to the
next ampersand. -/
theorem fs_order_id_query (pyHash : String → Int) (title : String) (v rest : List Char)
    (hv : v ≠ []) (hvc : ∀ c ∈ v, c ≠ '&' ∧ c ≠ 'o') :
    fs_order_id pyHash title
        (String.mk ("https://freelancespace.ru/order?id=".toList ++ (v ++ '&' :: rest)))
      = String.mk v := by
  have hv_amp : ∀ c ∈ v, c ≠ '&' := fun c hc => (hvc c hc).1
  have hv_o : ∀ c ∈ v, c ≠ 'o' := fun c hc => (hvc c hc).2
  have hlist : (String.mk ("https://freelancespace.ru/order?id=".toList
        ++ (v ++ '&' :: rest))).toList
      = "https://freelancespace.ru/".toList
        ++ (('o' :: "rder?id=".toList) ++ (v ++ '&' :: rest)) := by
    show "https://freelancespace.ru/order?id=".toList ++ (v ++ '&' :: rest) = _
    rw [show "https://freelancespace.ru/order?id=".toList
        = "https://freelancespace.ru/".toList ++ ('o' :: "rder?id=".toList) from by decide,
      List.append_assoc]
  have h2 : pySplitGo ('o' :: "rder?id=".toList) ('&' :: rest) 0
      = ('&' :: (pySplitGo ('o' :: "rder?id=".toList) rest 0).headD [])
          :: (pySplitGo ('o' :: "rder?id=".toList) rest 0).tail := by
    have h := pySplitGo_no_head 'o' "rder?id=".toList ['&'] rest (by decide)
    simpa using h
  have h1 : pySplitGo ('o' :: "rder?id=".toList)
      ((String.mk ("https://freelancespace.ru/order?id=".toList ++ (v ++ '&' :: rest))).toList) 0
      = "https://freelancespace.ru/".toList
        :: (v ++ '&' :: (pySplitGo ('o' :: "rder?id=".toList) rest 0).headD [])
        :: (pySplitGo ('o' :: "rder?id=".toList) ('&' :: rest) 0).tail := by
    rw [hlist, pySplitGo_no_head 'o' _ _ _ (by decide), pySplitGo_match_head]
    simp only [List.headD_cons, List.tail_cons, List.append_nil]
    rw [pySplitGo_no_head 'o' _ v ('&' :: rest) hv_o, h2]
    simp
  have hcand : (pySplit ['&']
      (v ++ '&' :: (pySplitGo ('o' :: "rder?id=".toList) rest 0).headD [])).headD [] = v := by
    show (pySplitGo ['&']
      (v ++ '&' :: (pySplitGo ('o' :: "rder?id=".toList) rest 0).headD []) 0).headD [] = v
    rw [pySplitGo_no_head '&' [] v _ hv_amp]
    rw [show ('&' :: (pySplitGo ('o' :: "rder?id=".toList) rest 0).headD [])
        = ['&'] ++ (pySplitGo ('o' :: "rder?id=".toList) rest 0).headD [] from rfl]
    rw [pySplitGo_match_head '&' []]
    simp
  rw [fs_order_id_eval pyHash title _ _ _ _ ?hsplit]
  · rw [hcand, if_pos hv]
  case hsplit =>
    show pySplitGo "order?id=".toList _ 0 = _
    rw [show "order?id=".toList = 'o' :: "rder?id=".toList from by decide, h1]

/-- FL.ru id, negative case: no `/projects/<digits>/` match means the
truncated hash of the href. -/
theorem fl_order_id_hash (pyHash : String → Int) (href : String)
    (h : fl_find_projects href.toList = none) :
    fl_order_id pyHash href = "fl_" ++ toString ((pyHash href).natAbs % 1000000) := by
  unfold fl_order_id
  rw [h]


/-- The suffix following the first (leftmost) occurrence of the nonempty
separator, `none` when the separator does not occur. -/
def firstOccSuffix (sep : List Char) : List Char → Option (List Char)
  | [] => none
  | c :: cs =>
    if sep.isPrefixOf (c :: cs) then some (cs.drop (sep.length - 1))
    else firstOccSuffix sep cs

/-- The prefix of the input before the first occurrence of the separator
(the whole input when the separator does not occur). -/
def segmentUntil (sep : List Char) : List Char → List Char
  | [] => []
  | c :: cs =>
    if sep.isPrefixOf (c :: cs) then [] else c :: segmentUntil sep cs

/-- A prefix is never longer than the whole. -/
theorem isPrefixOf_length_le : ∀ (s l : List Char), s.isPrefixOf l = true → s.length ≤ l.length := by
  intro s
  induction s with
  | nil => intro l _; simp
  | cons a as ih =>
    intro l h
    cases l with
    | nil => exact absurd h (by simp [List.isPrefixOf])
    | cons b bs =>
      rw [List.isPrefixOf] at h
      simp only [Bool.and_eq_true] at h
      have := ih bs h.2
      simpa using Nat.succ_le_succ this

/-- A list decomposes as any of its prefixes followed by the rest. -/
theorem eq_append_drop_of_isPrefixOf :
    ∀ (s l : List Char), s.isPrefixOf l = true → l = s ++ l.drop s.length := by
  intro s
  induction s with
  | nil => intro l _; simp
  | cons a as ih =>
    intro l h
    cases l with
    | nil => exact absurd h (by simp [List.isPrefixOf])
    | cons b bs =>
      rw [List.isPrefixOf] at h
      simp only [Bool.and_eq_true, beq_iff_eq] at h
      rw [h.1]
      show b :: bs = b :: (as ++ bs.drop as.length)
      rw [← ih bs h.2]

/-- The first piece of the split is the segment before the first
separator occurrence. -/
theorem pySplitGo_headD (o : Char) (sep' : List Char) :
    ∀ l : List Char, (pySplitGo (o :: sep') l 0).headD [] = segmentUntil (o :: sep') l := by
  intro l
  induction l with
  | nil => rfl
  | cons c cs ih =>
    rw [pySplitGo, segmentUntil]
    by_cases hp : (o :: sep').isPrefixOf (c :: cs) = true
    · rw [if_pos ⟨hp, by simp⟩, if_pos hp]
      simp
    · have hp' : ¬((o :: sep').isPrefixOf (c :: cs) = true ∧ (o :: sep') ≠ []) := fun hh => hp hh.1
      rw [if_neg hp', if_neg hp]
      cases hgo : pySplitGo (o :: sep') cs 0 with
      | nil => exact absurd hgo (pySplitGo_ne_nil _ _ _)
      | cons h t =>
        rw [hgo] at ih
        simp only [List.headD_cons] at ih
        simp [ih]

/-- The split at the first separator occurrence: the piece before it,
then the split of the suffix after it. -/
theorem pySplitGo_firstOcc (o : Char) (sep' : List Char) :
    ∀ (l tail : List Char), firstOccSuffix (o :: sep') l = some tail →
      pySplitGo (o :: sep') l 0
        = segmentUntil (o :: sep') l :: pySplitGo (o :: sep') tail 0 := by
  intro l
  induction l with
  | nil => intro tail h; exact absurd h (by simp [firstOccSuffix])
  | cons c cs ih =>
    intro tail h
    rw [firstOccSuffix] at h
    by_cases hp : (o :: sep').isPrefixOf (c :: cs) = true
    · rw [if_pos hp] at h
      injection h with htail
      rw [pySplitGo, if_pos ⟨hp, by simp⟩, segmentUntil, if_pos hp]
      congr 1
      have hlen : sep'.length ≤ cs.length := by
        have := isPrefixOf_length_le (o :: sep') (c :: cs) hp
        simpa using this
      have hq : cs.take sep'.length ++ cs.drop sep'.length = cs := List.take_append_drop _ _
      have hql : (cs.take sep'.length).length = sep'.length := List.length_take_of_le hlen
      have hskip := pySplitGo_skip (o :: sep') (cs.take sep'.length) (cs.drop sep'.length)
      rw [hql, hq] at hskip
      rw [show (o :: sep').length - 1 = sep'.length from by simp]
      rw [hskip]
      rw [show (o :: sep').length - 1 = sep'.length from by simp] at htail
      rw [htail]
    · rw [if_neg hp] at h
      have hp' : ¬((o :: sep').isPrefixOf (c :: cs) = true ∧ (o :: sep') ≠ []) := fun hh => hp hh.1
      rw [pySplitGo, if_neg hp', segmentUntil, if_neg hp]
      rw [ih tail h]

/-- No first occurrence means the separator never occurs. -/
theorem firstOcc_none_not_contains (o : Char) (sep' : List Char) :
    ∀ l : List Char, firstOccSuffix (o :: sep') l = none →
      containsSeq (o :: sep') l = false := by
  intro l
  induction l with
  | nil => intro _; rfl
  | cons c cs ih =>
    intro h
    rw [firstOccSuffix] at h
    by_cases hp : (o :: sep').isPrefixOf (c :: cs) = true
    · rw [if_pos hp] at h
      exact absurd h (by simp)
    · rw [if_neg hp] at h
      rw [containsSeq]
      have hpf : (o :: sep').isPrefixOf (c :: cs) = false := by
        revert hp
        cases (o :: sep').isPrefixOf (c :: cs) <;> simp
      rw [hpf, ih h]
      rfl

/-- For a single-character separator the leading segment is a
`takeWhile`. -/
theorem segmentUntil_singleton (a : Char) :
    ∀ l : List Char, segmentUntil [a] l = l.takeWhile (fun c => c != a) := by
  intro l
  induction l with
  | nil => rfl
  | cons c cs ih =>
    rw [segmentUntil, List.takeWhile_cons]
    by_cases hac : c = a
    · subst hac
      rw [if_pos (by simp [List.isPrefixOf])]
      simp
    · rw [if_neg ?_]
      · have : (c != a) = true := by simp [hac]
        rw [this]
        simp [ih]
      · simp only [List.isPrefixOf]
        intro hh
        simp only [Bool.and_eq_true, beq_iff_eq] at hh
        exact hac hh.1.symm

/-- Python `second.split('&')[0]` is `takeWhile (· != '&')`. -/
theorem pySplit_amp_headD (s : List Char) :
    (pySplit ['&'] s).headD [] = s.takeWhile (fun c => c != '&') := by
  show (pySplitGo ['&'] s 0).headD [] = _
  rw [pySplitGo_headD '&' [] s, segmentUntil_singleton '&' s]

/-- FreelanceSpace id, marker case in full generality: whenever
`order?id=` occurs in the url, the id is the text after its first
occurrence, cut at the next `&` or at a following marker occurrence,
with the hash fallback when that text is empty. -/
theorem fs_order_id_marker (pyHash : String → Int) (title url : String) (tail : List Char)
    (h : firstOccSuffix "order?id=".toList url.toList = some tail) :
    fs_order_id pyHash title url =
      (if ((segmentUntil "order?id=".toList tail).takeWhile (fun c => c != '&')) ≠ []
       then String.mk ((segmentUntil "order?id=".toList tail).takeWhile (fun c => c != '&'))
       else toString (pyHash (title ++ url)).natAbs) := by
  have hsep : "order?id=".toList = 'o' :: "rder?id=".toList := by decide
  rw [hsep] at h
  have hsplit := pySplitGo_firstOcc 'o' "rder?id=".toList url.toList tail h
  cases hgo : pySplitGo ('o' :: "rder?id=".toList) tail 0 with
  | nil => exact absurd hgo (pySplitGo_ne_nil _ _ _)
  | cons h1 T =>
    have hh1 : h1 = segmentUntil ('o' :: "rder?id=".toList) tail := by
      have hd := pySplitGo_headD 'o' "rder?id=".toList tail
      rw [hgo] at hd
      simpa using hd
    rw [hgo] at hsplit
    have hs2 : pySplit "order?id=".toList url.toList
        = segmentUntil ('o' :: "rder?id=".toList) url.toList :: h1 :: T := by
      show pySplitGo "order?id=".toList url.toList 0 = _
      rw [hsep, hsplit]
    rw [fs_order_id_eval pyHash title url _ _ _ hs2, hh1, pySplit_amp_headD, hsep]

/-- FreelanceSpace id, negative case restated with the occurrence
scanner: no marker occurrence means the hash of title plus url. -/
theorem fs_order_id_no_marker (pyHash : String → Int) (title url : String)
    (h : firstOccSuffix "order?id=".toList url.toList = none) :
    fs_order_id pyHash title url = toString (pyHash (title ++ url)).natAbs := by
  have hsep : "order?id=".toList = 'o' :: "rder?id=".toList := by decide
  apply fs_order_id_hash
  rw [hsep]
  apply firstOcc_none_not_contains
  rw [← hsep]
  exact h

/-- The scanner succeeds at an immediate `/projects/<digits>/` head. -/
theorem fl_find_at_head (ds post : List Char) (hds : ds ≠ [])
    (hdig : ∀ c ∈ ds, c.isDigit) :
    fl_find_projects ("/projects/".toList ++ (ds ++ '/' :: post)) = some ds := by
  have hmatch : fl_match_at ("/projects/".toList ++ (ds ++ '/' :: post)) = some ds := by
    rw [fl_match_at, if_pos (isPrefixOf_self_append _ _)]
    have hdrop : ("/projects/".toList ++ (ds ++ '/' :: post)).drop 10 = ds ++ '/' :: post :=
      List.drop_left' (by decide)
    rw [hdrop, takeWhile_digits_append post ds hdig]
    rw [if_pos ?_]
    refine ⟨hds, ?_⟩
    rw [← List.drop_drop, hdrop, List.drop_left' rfl]
    rfl
  rw [show ("/projects/".toList ++ (ds ++ '/' :: post))
      = '/' :: ("projects/".toList ++ (ds ++ '/' :: post)) from rfl] at hmatch ⊢
  rw [fl_find_projects, hmatch]

/-- Completeness of the scan: whenever a `/projects/<digits>/` segment
occurs anywhere in the href, the scanner finds a match (the leftmost
one). -/
theorem fl_find_complete (ds post : List Char) (hds : ds ≠ [])
    (hdig : ∀ c ∈ ds, c.isDigit) :
    ∀ pre : List Char, ∃ ds',
      fl_find_projects (pre ++ ("/projects/".toList ++ (ds ++ '/' :: post))) = some ds' := by
  intro pre
  induction pre with
  | nil => exact ⟨ds, by simpa using fl_find_at_head ds post hds hdig⟩
  | cons c pre' ih =>
    rcases ih with ⟨ds', hds'⟩
    rw [List.cons_append]
    cases hm : fl_match_at (c :: (pre' ++ ("/projects/".toList ++ (ds ++ '/' :: post)))) with
    | some d =>
      refine ⟨d, ?_⟩
      rw [fl_find_projects, hm]
    | none =>
      refine ⟨ds', ?_⟩
      rw [fl_find_projects, hm]
      exact hds'

/-- Dropping as many elements as `takeWhile` keeps lands on
`dropWhile`. -/
theorem drop_length_takeWhile (p : Char → Bool) :
    ∀ l : List Char, l.drop (l.takeWhile p).length = l.dropWhile p := by
  intro l
  induction l with
  | nil => rfl
  | cons c cs ih =>
    rw [List.takeWhile_cons, List.dropWhile_cons]
    by_cases hc : p c = true
    · rw [if_pos hc, if_pos hc]
      show cs.drop (cs.takeWhile p).length = cs.dropWhile p
      exact ih
    · rw [if_neg hc, if_neg hc]
      rfl

/-- Soundness of the scan: a match is a nonempty all-digit run delimited
as `/projects/<digits>/` somewhere in the href. -/
theorem fl_find_sound :
    ∀ (l ds : List Char), fl_find_projects l = some ds →
      ds ≠ [] ∧ (∀ c ∈ ds, c.isDigit)
        ∧ ∃ pre post, l = pre ++ ("/projects/".toList ++ (ds ++ '/' :: post)) := by
  intro l
  induction l with
  | nil => intro ds h; exact absurd h (by simp [fl_find_projects])
  | cons c cs ih =>
    intro ds h
    rw [fl_find_projects] at h
    cases hm : fl_match_at (c :: cs) with
    | none =>
      rw [hm] at h
      rcases ih ds h with ⟨h1, h2, pre, post, hdec⟩
      exact ⟨h1, h2, c :: pre, post, by rw [List.cons_append, ← hdec]⟩
    | some d =>
      rw [hm] at h
      injection h with hd
      subst hd
      simp only [fl_match_at] at hm
      by_cases hp : ("/projects/".toList).isPrefixOf (c :: cs) = true
      · rw [if_pos hp] at hm
        split at hm
        next hcond =>
          injection hm with hm'
          subst hm'
          refine ⟨hcond.1, fun x hx => List.mem_takeWhile_imp hx, ?_⟩
          have h10 : ("/projects/".toList).length = 10 := by decide
          have hlit := eq_append_drop_of_isPrefixOf "/projects/".toList (c :: cs) hp
          rw [h10] at hlit
          have hwd := List.takeWhile_append_dropWhile Char.isDigit ((c :: cs).drop 10)
          have hdw : (c :: cs).drop (10 + (((c :: cs).drop 10).takeWhile Char.isDigit).length)
              = ((c :: cs).drop 10).dropWhile Char.isDigit := by
            rw [← List.drop_drop]
            exact drop_length_takeWhile Char.isDigit _
          rw [hdw] at hcond
          cases hdwc : ((c :: cs).drop 10).dropWhile Char.isDigit with
          | nil =>
            rw [hdwc] at hcond
            exact absurd hcond.2 (by simp)
          | cons e es =>
            rw [hdwc] at hcond
            have he : e = '/' := by
              have h2 := hcond.2
              rw [List.head?_cons] at h2
              exact Option.some_injective _ h2
            refine ⟨[], es, ?_⟩
            rw [List.nil_append]
            have hrw : ((c :: cs).drop 10).takeWhile Char.isDigit ++ '/' :: es
                = (c :: cs).drop 10 := by
              conv_rhs => rw [← hwd, hdwc]
              rw [he]
            rw [hrw]
            exact hlit
        next hcond => exact absurd hm (by simp)
      · rw [if_neg hp] at hm
        exact absurd hm (by simp)

/-- C9 (amended): FreelanceSpace — whenever `order?id=` occurs in the
url, the id is the text after the first occurrence, cut at the next `&`
or at a following marker occurrence; if that text is empty, or no marker
occurs, the id is the untruncated absolute process hash of title+url.
FL.ru — the id is `fl_` plus the digit run of the leftmost
`/projects/<digits>/` segment: every scanner match is such a nonempty
all-digit segment (soundness), a match is found whenever such a segment
occurs anywhere in the href (completeness), and with no match the id is
`fl_` plus the process hash of the href alone modulo 1000000.  Ids are
pure functions of (title, url) and the per-process hash, so refetching
the same listing within one process reproduces the id. -/
theorem order_id_derivation :
    (∀ (pyHash : String → Int) (title url : String) (tail : List Char),
        firstOccSuffix "order?id=".toList url.toList = some tail →
        fs_order_id pyHash title url =
          (if ((segmentUntil "order?id=".toList tail).takeWhile (fun c => c != '&')) ≠ []
           then String.mk ((segmentUntil "order?id=".toList tail).takeWhile (fun c => c != '&'))
           else toString (pyHash (title ++ url)).natAbs))
    ∧ (∀ (pyHash : String → Int) (title url : String),
        firstOccSuffix "order?id=".toList url.toList = none →
        fs_order_id pyHash title url = toString (pyHash (title ++ url)).natAbs)
    ∧ (∀ (pyHash : String → Int) (href : String) (ds : List Char),
        fl_find_projects href.toList = some ds →
        fl_order_id pyHash href = "fl_" ++ String.mk ds
          ∧ ds ≠ [] ∧ (∀ c ∈ ds, c.isDigit)
          ∧ ∃ pre post, href.toList = pre ++ ("/projects/".toList ++ (ds ++ '/' :: post)))
    ∧ (∀ (pyHash : String → Int) (href : String) (pre ds post : List Char),
        href.toList = pre ++ ("/projects/".toList ++ (ds ++ '/' :: post)) →
        ds ≠ [] → (∀ c ∈ ds, c.isDigit) →
        ∃ ds', fl_find_projects href.toList = some ds'
          ∧ fl_order_id pyHash href = "fl_" ++ String.mk ds')
    ∧ (∀ (pyHash : String → Int) (href : String),
        fl_find_projects href.toList = none →
        fl_order_id pyHash href = "fl_" ++ toString ((pyHash href).natAbs % 1000000)) := by
  refine ⟨fs_order_id_marker, fs_order_id_no_marker, ?_, ?_, fl_order_id_hash⟩
  · intro pyHash href ds h
    rcases fl_find_sound href.toList ds h with ⟨h1, h2, pre, post, hdec⟩
    refine ⟨?_, h1, h2, pre, post, hdec⟩
    unfold fl_order_id
    rw [h]
  · intro pyHash href pre ds post hdec h1 h2
    rcases fl_find_complete ds post h1 h2 pre with ⟨ds', hds'⟩
    rw [← hdec] at hds'
    refine ⟨ds', hds', ?_⟩
    unfold fl_order_id
    rw [hds']

/-- Witness for C9's amended theorem via the marker case: query value
`123`, cut at the `&`. -/
theorem order_id_derivation_witness :
    fs_order_id (fun _ => 0) "T" "https://freelancespace.ru/order?id=123&p=2" = "123" := by
  rw [order_id_derivation.1 (fun _ => 0) "T" "https://freelancespace.ru/order?id=123&p=2"
    "123&p=2".toList (by decide)]
  decide
